import Mathlib

/-!
Verification of the ValidatorAccumulator block coordinator
(`ValAcc/accumulator/accumulator.go`).

The repository source available for this development is the single file
`accumulator.go`, which contains the coordinator (`Accumulator.Init` and
`Accumulator.Run`).  The collaborating packages (`merkleDag`, `node`,
`database`, `types`, and the `ChainAcc` helper) are referenced but not
present; their definitions are modelled from the specification and each
such definition carries a doc comment saying so.

Machine integers (`uint64` heights, `uint16` versions, ...) are modelled
as `Nat`; the Go code performs no arithmetic on them other than `+ 1`, so
no overflow wrapping is observable in the modelled paths.  Byte strings
are modelled as `List Nat` (one `Nat` per byte).  The two hash functions
(the 2-to-1 compression used by the Merkle DAG, and the node digest
`GetHash`) are cryptographic primitives whose bodies are outside the
source; every definition is parameterised over them.
-/

/-- A digest, `types.Hash` in the source (`[32]byte`), modelled as a byte
list.  All digests produced by the modelled code have length 32. -/
abbrev Hash := List Nat

/-- The all-zero 32-byte digest, the Go zero value of `types.Hash`. -/
def zeroHash : Hash := List.replicate 32 0

/-- Byte-lexicographic three-way comparison, the model of Go
`bytes.Compare` as used in `accumulator.go` line 114 (on two 32-byte
slices). -/
def bytesCompare : List Nat → List Nat → Ordering
  | [], [] => Ordering.eq
  | [], _ :: _ => Ordering.lt
  | _ :: _, [] => Ordering.gt
  | a :: as, b :: bs =>
    if a < b then Ordering.lt
    else if b < a then Ordering.gt
    else bytesCompare as bs

/-- Strict byte-lexicographic order: `bytes.Compare(a, b) < 0`. -/
def lexLt (a b : List Nat) : Prop := bytesCompare a b = Ordering.lt

instance (a b : List Nat) : Decidable (lexLt a b) := by
  unfold lexLt; infer_instance

/-- Modelled from the spec: `merkleDag.MD` is not in src/.  Per §3 it
keeps the ordered leaf list and the per-level frontier (`F[k]`,
represented here as `Option Hash` per level, lowest level first). -/
structure MD where
  HashList : List Hash
  frontier : List (Option Hash)
deriving DecidableEq

/-- The fresh (zero-value) Merkle DAG aggregator. -/
def emptyMD : MD := ⟨[], []⟩

/-- Modelled from the spec: the frontier update of `MD.AddToChain` (§3):
`cur = h, k = 0; while F[k] occupied: cur = H(F[k] || cur); F[k] = None;
k += 1;` then `F[k] = cur`. -/
def addFrontier (H : Hash → Hash → Hash) : List (Option Hash) → Hash → List (Option Hash)
  | [], cur => [some cur]
  | none :: rest, cur => some cur :: rest
  | some f :: rest, cur => none :: addFrontier H rest (H f cur)

/-- Modelled from the spec: `MD.AddToChain` appends the leaf to the leaf
list and merges it into the frontier. -/
def MD.AddToChain (H : Hash → Hash → Hash) (md : MD) (h : Hash) : MD :=
  ⟨md.HashList ++ [h], addFrontier H md.frontier h⟩

/-- Modelled from the spec: `MD.GetMDRoot` folds the occupied frontier
entries from lowest to highest level (`acc = H(F[k] || acc)`); the root
of an empty MD is the zero digest (§3, §4.2). -/
def MD.GetMDRoot (H : Hash → Hash → Hash) (md : MD) : Hash :=
  match md.frontier.foldl
      (fun acc f =>
        match f with
        | none => acc
        | some x =>
          match acc with
          | none => some x
          | some a => some (H x a)) none with
  | none => zeroHash
  | some r => r

/-- Modelled from the spec: the persisted `node.Node` record (§3).  The
field set and order follow §3; Go zero values are `0`, `false`, the zero
digest and the empty list. -/
structure Node where
  Version : Nat
  ChainID : Hash
  BHeight : Nat
  SequenceNum : Nat
  TimeStamp : Int
  Previous : Hash
  IsNode : Bool
  ListMDRoot : Hash
  EntryList : List Hash
deriving DecidableEq

/-- The Go zero value `node.Node{}`, produced by `new(node.Node)`. -/
def emptyNode : Node :=
  ⟨0, zeroHash, 0, 0, 0, zeroHash, false, zeroHash, []⟩

/-- Modelled from the spec: `types.Version` (`CURRENT_VERSION`); its
numeric value is immaterial to every claim. -/
def typesVersion : Nat := 1

/-- Big-endian encoding of a natural into `width` bytes. -/
def natToBytesBE : Nat → Nat → List Nat
  | 0, _ => []
  | width + 1, n => natToBytesBE width (n / 256) ++ [n % 256]

/-- Big-endian decoding of a byte list into a natural. -/
def bytesToNatBE (bs : List Nat) : Nat :=
  bs.foldl (fun a b => a * 256 + b) 0

/-- Two's-complement big-endian encoding of an `i64` timestamp. -/
def intToBytesBE (t : Int) : List Nat :=
  natToBytesBE 8 (t % (2 ^ 64 : Nat)).toNat

/-- Two's-complement big-endian decoding of an `i64` timestamp. -/
def intFromBytesBE (bs : List Nat) : Int :=
  let n := bytesToNatBE bs
  if n < 2 ^ 63 then (n : Int) else (n : Int) - 2 ^ 64

/-- Modelled from the spec: `node.Node.Marshal` is not in src/.  Per §4.1
the serialization is the concatenation of the fields in the §3 order,
with `entry_list` length-prefixed by a u32 count of 32-byte entries.
(The 64-byte directory `entry_list` variant of §4.1 never arises in the
source path: `Run` leaves the directory node's `entry_list` empty.) -/
def Marshal (n : Node) : List Nat :=
  natToBytesBE 2 n.Version ++ n.ChainID ++ natToBytesBE 8 n.BHeight ++
    natToBytesBE 8 n.SequenceNum ++ intToBytesBE n.TimeStamp ++ n.Previous ++
    [if n.IsNode then 1 else 0] ++ n.ListMDRoot ++
    natToBytesBE 4 n.EntryList.length ++ n.EntryList.flatten

/-- Reads exactly `k` bytes, failing on a truncated buffer. -/
def readBytes (k : Nat) (bs : List Nat) : Option (List Nat × List Nat) :=
  if bs.length < k then none else some (bs.take k, bs.drop k)

/-- Reads `n` consecutive 32-byte hashes. -/
def readHashes : Nat → List Nat → Option (List Hash × List Nat)
  | 0, bs => some ([], bs)
  | n + 1, bs => do
    let (h, r) ← readBytes 32 bs
    let (hs, r2) ← readHashes n r
    some (h :: hs, r2)

/-- Modelled from the spec: `node.Node.Unmarshal` is not in src/.  It
parses the §4.1 serialization, failing (`DecodeError`) on a truncated
buffer, and returns the node together with the number of bytes
consumed (the Go method returns `(int, error)`). -/
def Unmarshal (bs : List Nat) : Option (Node × Nat) := do
  let (vB, r1) ← readBytes 2 bs
  let (cidB, r2) ← readBytes 32 r1
  let (bhB, r3) ← readBytes 8 r2
  let (sqB, r4) ← readBytes 8 r3
  let (tsB, r5) ← readBytes 8 r4
  let (pvB, r6) ← readBytes 32 r5
  let (inB, r7) ← readBytes 1 r6
  let (mrB, r8) ← readBytes 32 r7
  let (cntB, r9) ← readBytes 4 r8
  let (els, r10) ← readHashes (bytesToNatBE cntB) r9
  some (⟨bytesToNatBE vB, cidB, bytesToNatBE bhB, bytesToNatBE sqB,
          intFromBytesBE tsB, pvB, inB.headD 0 ≠ 0, mrB, els⟩,
        bs.length - r10.length)

/-- Modelled from the spec: the two store namespaces `types.Node` and
`types.NodeHead` (§4.4, §6). -/
inductive NameSpace
  | node
  | nodeHead
deriving DecidableEq

/-- Modelled from the spec: `database.DB` is not in src/.  Per §4.4/§6 it
is a typed key/value façade; it is modelled as its lookup function, with
`Put` returning the updated store. -/
structure DB where
  Get : NameSpace → List Nat → Option (List Nat)

/-- Modelled from the spec: `DB.Put` overwrites the cell at
`(namespace, key)` (§4.4). -/
def DB.Put (db : DB) (ns : NameSpace) (key val : List Nat) : DB :=
  ⟨fun ns2 k2 => if ns2 = ns ∧ k2 = key then some val else db.Get ns2 k2⟩

/-- Modelled from the spec: `node.Node.Put` is not in src/.  Per §4.4 the
node is stored under `NODE[GetHash(node)]`, and per §4.4/§4.5 step 7 the
head cell `NODE_HEAD[chain_id]` is updated to name the node just
written.  `nh` is the node digest `GetHash`. -/
def Node.Put (n : Node) (nh : Node → Hash) (db : DB) : DB :=
  (db.Put NameSpace.node (nh n) (Marshal n)).Put NameSpace.nodeHead n.ChainID (nh n)

/-- Modelled from the spec: `node.Node.GetMDRoot` is not in src/.  Per
§4.5 step 8 the value published on the md feed is the directory MD root,
which `Run` stored in `ListMDRoot`. -/
def Node.GetMDRoot (n : Node) : Hash := n.ListMDRoot

/-- Modelled from the spec: the `node.EntryHash` feed element, a
`(chain_id, entry_hash)` pair (§3, §6). -/
structure EntryHash where
  ChainID : Hash
  EntryHash : Hash
deriving DecidableEq

/-- Modelled from the spec: the `node.NEList` element built during flush
(`accumulator.go` lines 106-109): a `(chain_id, md_root)` pair. -/
structure NEList where
  ChainID : Hash
  MDRoot : Hash
deriving DecidableEq

/-- Modelled from the spec: the per-chain accumulator `ChainAcc` (§4.3):
one MD plus a partially populated leaf-list node template. -/
structure ChainAcc where
  node : Node
  MD : MD
deriving DecidableEq

/-- Modelled from the spec: `NewChainAcc` (§4.3) seeds the node template
with the chain id and the block height; the MD starts empty.  (The Go
call also passes the DB, which the constructor merely retains.) -/
def NewChainAcc (e : EntryHash) (height : Nat) : ChainAcc :=
  ⟨{ emptyNode with ChainID := e.ChainID, BHeight := height }, emptyMD⟩

/-- The coordinator state: the fields of `Accumulator` that the modelled
code reads or writes (`accumulator.go` lines 25-34).  The Go map
`chains` is modelled as an association list in insertion order (Go map
iteration order is unspecified; the flush sort makes the committed
order canonical).  `mdFeed` models the history of values sent on the
md-feed channel. -/
structure AccState where
  db : DB
  chainID : Hash
  height : Nat
  chains : List (Hash × ChainAcc)
  previous : Option Node
  mdFeed : List Hash

/-- `Accumulator.Init` (`accumulator.go` lines 40-69): read
`NODE_HEAD[chainID]`; if present, the named node must exist and decode
(otherwise the Go code panics, modelled as `none`), and it becomes
`previous` with the next height `BHeight + 1`; if absent, `previous`
stays nil and the height stays at its zero value 0. -/
def Init (db : DB) (cid : Hash) : Option AccState :=
  match db.Get NameSpace.nodeHead cid with
  | none => some ⟨db, cid, 0, [], none, []⟩
  | some headHash =>
    match db.Get NameSpace.node headHash with
    | none => none
    | some bs =>
      match Unmarshal bs with
      | none => none
      | some (headNode, _) =>
        some ⟨db, cid, headNode.BHeight + 1, [], some headNode, []⟩

/-- One entry-feed arrival (`accumulator.go` lines 87-93): look the chain
up; absent chains are created with `NewChainAcc` and stored; in either
case the entry hash is added to that chain's MD. -/
def addEntry (H : Hash → Hash → Hash) (height : Nat) :
    List (Hash × ChainAcc) → EntryHash → List (Hash × ChainAcc)
  | [], e =>
    [(e.ChainID,
      { NewChainAcc e height with
        MD := MD.AddToChain H (NewChainAcc e height).MD e.EntryHash })]
  | (k, c) :: rest, e =>
    if k = e.ChainID then
      (k, { c with MD := MD.AddToChain H c.MD e.EntryHash }) :: rest
    else
      (k, c) :: addEntry H height rest e

/-- The chain map after the block loop has consumed a list of entries,
starting from the empty map. -/
def processEntries (H : Hash → Hash → Hash) (height : Nat)
    (es : List EntryHash) : List (Hash × ChainAcc) :=
  es.foldl (addEntry H height) []

/-- One observable event at the coordinator's select (`accumulator.go`
lines 82-96): a control value or an entry arrival.  (The default branch
only sleeps and changes nothing.) -/
inductive Event
  | ctl (b : Bool)
  | entry (e : EntryHash)
deriving DecidableEq

/-- The block-processing loop (`accumulator.go` lines 77-97) over a
finite sequence of observed events: `ctl true` breaks out of the block
(second component `true`); `ctl false` is ignored; an entry is routed by
`addEntry`.  If the events run out the loop is still building (second
component `false`). -/
def buildLoop (H : Hash → Hash → Hash) (height : Nat)
    (cs : List (Hash × ChainAcc)) : List Event → List (Hash × ChainAcc) × Bool
  | [] => (cs, false)
  | Event.ctl true :: _ => (cs, true)
  | Event.ctl false :: rest => buildLoop H height cs rest
  | Event.entry e :: rest => buildLoop H height (addEntry H height cs e) rest

/-- Finalizing one chain at flush (`accumulator.go` lines 101-103): copy
the MD root and the leaf list into the node and mark it a leaf-list
node. -/
def finalizeChain (H : Hash → Hash → Hash) (c : ChainAcc) : Node :=
  { c.node with
    ListMDRoot := MD.GetMDRoot H c.MD
    EntryList := c.MD.HashList
    IsNode := false }

/-- The `chainEntries` list built during the flush loop
(`accumulator.go` lines 106-109), in chain-map order. -/
def chainEntriesOf (H : Hash → Hash → Hash)
    (chains : List (Hash × ChainAcc)) : List NEList :=
  chains.map (fun p => ⟨(finalizeChain H p.2).ChainID, (finalizeChain H p.2).ListMDRoot⟩)

/-- The comparison handed to `sort.Slice` (`accumulator.go` lines
113-115), as the non-strict total order it induces. -/
def neLe (x y : NEList) : Prop := ¬ lexLt y.ChainID x.ChainID

instance : DecidableRel neLe := fun x y => by
  unfold neLe; infer_instance

/-- The flush-time sort of `chainEntries` by chain id
(`accumulator.go` lines 113-115). -/
def sortNE (l : List NEList) : List NEList := List.insertionSort neLe l

/-- The directory MD accumulated over the sorted chain entries
(`accumulator.go` lines 132-135): only the `MDRoot` field of each entry
is fed to `AddToChain`. -/
def dirMD (H : Hash → Hash → Hash) (l : List NEList) : MD :=
  l.foldl (fun m ne => MD.AddToChain H m ne.MDRoot) emptyMD

/-- The end-of-block flush (`accumulator.go` lines 99-156): persist every
chain's finalized leaf-list node, sort the `(chain_id, md_root)` pairs,
fold the sorted roots into the directory MD, build and persist the
directory node, publish its root, and clear the chain map.  `nh` is the
node digest `GetHash` and `t` the sampled wall-clock timestamp.  The
result is `none` exactly when the statement
`directoryBlock.Previous = *a.previous.GetHash()` would dereference a
nil `previous`.  Note what the source does *not* do here: it tests
`SequenceNum > 0` on the freshly allocated directory node (whose
`SequenceNum` is still 0) before assigning `SequenceNum`, and it updates
neither `a.previous` nor `a.height` after the flush. -/
def flush (H : Hash → Hash → Hash) (nh : Node → Hash) (t : Int)
    (a : AccState) : Option (AccState × Node) :=
  let finals := a.chains.map (fun p => finalizeChain H p.2)
  let db1 := finals.foldl (fun db n => Node.Put n nh db) a.db
  let entries := sortNE (chainEntriesOf H a.chains)
  let root := MD.GetMDRoot H (dirMD H entries)
  let d0 : Node :=
    { emptyNode with
      Version := typesVersion
      ChainID := a.chainID
      BHeight := a.height }
  let d1? : Option Node :=
    if d0.SequenceNum > 0 then
      match a.previous with
      | none => none
      | some p => some { d0 with Previous := nh p }
    else some d0
  match d1? with
  | none => none
  | some d1 =>
    let d : Node :=
      { d1 with
        SequenceNum := a.height
        TimeStamp := t
        IsNode := true
        ListMDRoot := root }
    let db2 := Node.Put d nh db1
    some ({ a with db := db2, chains := [], mdFeed := a.mdFeed ++ [d.GetMDRoot] }, d)

/-- The directory node produced by a flush, when no nil dereference
occurs. -/
def flushDir (H : Hash → Hash → Hash) (nh : Node → Hash) (t : Int)
    (a : AccState) : Option Node :=
  (flush H nh t a).map Prod.snd

/-- The coordinator state after a flush, when no nil dereference
occurs. -/
def flushState (H : Hash → Hash → Hash) (nh : Node → Hash) (t : Int)
    (a : AccState) : Option AccState :=
  (flush H nh t a).map Prod.fst

/-- The coordinator's `previous` pointer after a flush. -/
def flushPrevious (H : Hash → Hash → Hash) (nh : Node → Hash) (t : Int)
    (a : AccState) : Option (Option Node) :=
  (flushState H nh t a).map AccState.previous

/-- The coordinator's block height after a flush. -/
def flushHeight (H : Hash → Hash → Hash) (nh : Node → Hash) (t : Int)
    (a : AccState) : Option Nat :=
  (flushState H nh t a).map AccState.height

/-- The store cell `NODE_HEAD[accumulator chain id]` after a flush. -/
def flushHead (H : Hash → Hash → Hash) (nh : Node → Hash) (t : Int)
    (a : AccState) : Option (Option (List Nat)) :=
  (flushState H nh t a).map (fun s => s.db.Get NameSpace.nodeHead a.chainID)

/-- The directory node a flush constructs, written out in closed form. -/
def dirNodeOf (H : Hash → Hash → Hash) (t : Int) (a : AccState) : Node :=
  { emptyNode with
    Version := typesVersion
    ChainID := a.chainID
    BHeight := a.height
    SequenceNum := a.height
    TimeStamp := t
    IsNode := true
    ListMDRoot := MD.GetMDRoot H (dirMD H (sortNE (chainEntriesOf H a.chains))) }

theorem flush_eq (H : Hash → Hash → Hash) (nh : Node → Hash) (t : Int)
    (a : AccState) :
    flush H nh t a =
      some ({ a with
              db := Node.Put (dirNodeOf H t a) nh
                ((a.chains.map (fun p => finalizeChain H p.2)).foldl
                  (fun db n => Node.Put n nh db) a.db)
              chains := []
              mdFeed := a.mdFeed ++ [(dirNodeOf H t a).GetMDRoot] },
            dirNodeOf H t a) := rfl

/-! Order lemmas for the byte-lexicographic comparison. -/

theorem bytesCompare_eq_iff : ∀ a b : List Nat, bytesCompare a b = Ordering.eq ↔ a = b
  | [], [] => by simp [bytesCompare]
  | [], _ :: _ => by simp [bytesCompare]
  | _ :: _, [] => by simp [bytesCompare]
  | a :: as, b :: bs => by
    simp only [bytesCompare]
    rcases Nat.lt_trichotomy a b with h | h | h
    · rw [if_pos h]
      simp only [List.cons.injEq]
      constructor
      · intro hc
        exact absurd hc (by decide)
      · rintro ⟨h1, h2⟩
        exact absurd h1 (by omega)
    · subst h
      rw [if_neg (by omega), if_neg (by omega)]
      rw [bytesCompare_eq_iff as bs]
      simp
    · rw [if_neg (by omega), if_pos h]
      simp only [List.cons.injEq]
      constructor
      · intro hc
        exact absurd hc (by decide)
      · rintro ⟨h1, h2⟩
        exact absurd h1 (by omega)

theorem bytesCompare_gt_iff_lt : ∀ a b : List Nat,
    bytesCompare a b = Ordering.gt ↔ bytesCompare b a = Ordering.lt
  | [], [] => by simp [bytesCompare]
  | [], _ :: _ => by simp [bytesCompare]
  | _ :: _, [] => by simp [bytesCompare]
  | a :: as, b :: bs => by
    simp only [bytesCompare]
    rcases Nat.lt_trichotomy a b with h | h | h
    · rw [if_pos h, if_neg (by omega), if_pos h]
      simp
    · subst h
      rw [if_neg (by omega), if_neg (by omega), if_neg (by omega), if_neg (by omega)]
      exact bytesCompare_gt_iff_lt as bs
    · rw [if_neg (by omega), if_pos h, if_pos h]
      simp

theorem bytesCompare_lt_trans : ∀ a b c : List Nat,
    bytesCompare a b = Ordering.lt → bytesCompare b c = Ordering.lt →
      bytesCompare a c = Ordering.lt
  | [], [], _, h1, _ => by simp [bytesCompare] at h1
  | [], _ :: _, [], _, h2 => by simp [bytesCompare] at h2
  | [], _ :: _, _ :: _, _, _ => by simp [bytesCompare]
  | _ :: _, [], _, h1, _ => by simp [bytesCompare] at h1
  | _ :: _, _ :: _, [], _, h2 => by simp [bytesCompare] at h2
  | a :: as, b :: bs, c :: cs, h1, h2 => by
    simp only [bytesCompare] at h1 h2 ⊢
    rcases Nat.lt_trichotomy a b with hab | hab | hab
    · rcases Nat.lt_trichotomy b c with hbc | hbc | hbc
      · rw [if_pos (by omega)]
      · subst hbc
        rw [if_pos hab]
      · rw [if_neg (by omega), if_pos hbc] at h2
        exact absurd h2 (by decide)
    · subst hab
      rw [if_neg (by omega), if_neg (by omega)] at h1
      rcases Nat.lt_trichotomy a c with hac | hac | hac
      · rw [if_pos hac]
      · subst hac
        rw [if_neg (by omega), if_neg (by omega)] at h2
        rw [if_neg (by omega), if_neg (by omega)]
        exact bytesCompare_lt_trans as bs cs h1 h2
      · rw [if_neg (by omega), if_pos hac] at h2
        exact absurd h2 (by decide)
    · rw [if_neg (by omega), if_pos hab] at h1
      exact absurd h1 (by decide)

theorem lexLt_trichot (a b : List Nat) : lexLt a b ∨ a = b ∨ lexLt b a := by
  unfold lexLt
  rcases h : bytesCompare a b with _ | _ | _
  · exact Or.inl rfl
  · exact Or.inr (Or.inl ((bytesCompare_eq_iff a b).mp h))
  · exact Or.inr (Or.inr ((bytesCompare_gt_iff_lt a b).mp h))

theorem lexLt_asymm {a b : List Nat} (h : lexLt a b) : ¬ lexLt b a := by
  intro h2
  have h3 := bytesCompare_lt_trans a b a h h2
  have h4 : bytesCompare a a = Ordering.eq := (bytesCompare_eq_iff a a).mpr rfl
  rw [h4] at h3
  exact absurd h3 (by decide)

instance : IsTotal NEList neLe :=
  ⟨fun x y => by
    unfold neLe
    by_cases h : lexLt y.ChainID x.ChainID
    · exact Or.inr (lexLt_asymm h)
    · exact Or.inl h⟩

instance : IsTrans NEList neLe :=
  ⟨fun x y z hxy hyz => by
    unfold neLe at *
    intro hzx
    rcases lexLt_trichot y.ChainID x.ChainID with h | h | h
    · exact hxy h
    · exact hyz (h ▸ hzx)
    · exact hyz (bytesCompare_lt_trans _ _ _ hzx h)⟩

/-! Association-list machinery for the chain map. -/

/-- First-match lookup in the chain map. -/
def lookupChain : List (Hash × ChainAcc) → Hash → Option ChainAcc
  | [], _ => none
  | (k, c) :: rest, q => if k = q then some c else lookupChain rest q

/-- The leaves routed to chain `k`, in arrival order. -/
def entriesFor (k : Hash) (es : List EntryHash) : List Hash :=
  (es.filter (fun e => e.ChainID = k)).map EntryHash.EntryHash

/-- Replay of a leaf sequence into a fresh MD. -/
def mdOf (H : Hash → Hash → Hash) (l : List Hash) : MD :=
  l.foldl (MD.AddToChain H) emptyMD

theorem hashList_foldl (H : Hash → Hash → Hash) :
    ∀ (l : List Hash) (m : MD), (l.foldl (MD.AddToChain H) m).HashList = m.HashList ++ l
  | [], m => by simp
  | x :: l, m => by
    rw [List.foldl_cons, hashList_foldl H l]
    simp [MD.AddToChain]

theorem hashList_mdOf (H : Hash → Hash → Hash) (l : List Hash) :
    (mdOf H l).HashList = l := by
  rw [mdOf, hashList_foldl]
  simp [emptyMD]

theorem addEntry_keys (H : Hash → Hash → Hash) (height : Nat) :
    ∀ (cs : List (Hash × ChainAcc)) (e : EntryHash),
      (addEntry H height cs e).map Prod.fst =
        if e.ChainID ∈ cs.map Prod.fst then cs.map Prod.fst
        else cs.map Prod.fst ++ [e.ChainID]
  | [], e => by simp [addEntry]
  | (k, c) :: rest, e => by
    by_cases h : k = e.ChainID
    · subst h
      simp [addEntry]
    · rw [addEntry.eq_def]
      simp only []
      rw [if_neg h]
      have ih := addEntry_keys H height rest e
      by_cases hm : e.ChainID ∈ rest.map Prod.fst
      · simp only [List.map_cons, List.mem_cons]
        rw [if_pos (Or.inr hm)]
        simp only [ih, if_pos hm]
      · simp only [List.map_cons, List.mem_cons]
        rw [if_neg (by
          intro hc
          rcases hc with hc | hc
          · exact h hc.symm
          · exact hm hc)]
        simp only [ih, if_neg hm]
        simp

theorem lookup_addEntry (H : Hash → Hash → Hash) (height : Nat) :
    ∀ (cs : List (Hash × ChainAcc)) (e : EntryHash) (q : Hash),
      lookupChain (addEntry H height cs e) q =
        if q = e.ChainID then
          some (match lookupChain cs q with
            | none =>
              { NewChainAcc e height with
                MD := MD.AddToChain H (NewChainAcc e height).MD e.EntryHash }
            | some c => { c with MD := MD.AddToChain H c.MD e.EntryHash })
        else lookupChain cs q
  | [], e, q => by
    by_cases h : q = e.ChainID
    · subst h
      simp [addEntry, lookupChain]
    · simp only [addEntry, lookupChain]
      rw [if_neg (fun hc : e.ChainID = q => h hc.symm), if_neg h]
  | (k, c) :: rest, e, q => by
    by_cases hk : k = e.ChainID
    · by_cases hq : k = q
      · simp only [addEntry, if_pos hk, lookupChain, if_pos hq,
          if_pos (hq.symm.trans hk)]
      · simp only [addEntry, if_pos hk, lookupChain, if_neg hq,
          if_neg (fun hc : q = e.ChainID => hq (hk.trans hc.symm))]
    · by_cases hq : k = q
      · simp only [addEntry, if_neg hk, lookupChain, if_pos hq,
          if_neg (fun hc : q = e.ChainID => hk (hq.trans hc))]
      · simp only [addEntry, if_neg hk, lookupChain, if_neg hq]
        exact lookup_addEntry H height rest e q

theorem mem_keys_iff_lookup (q : Hash) :
    ∀ cs : List (Hash × ChainAcc),
      q ∈ cs.map Prod.fst ↔ (lookupChain cs q).isSome
  | [] => by simp [lookupChain]
  | (k, c) :: rest => by
    by_cases h : k = q
    · subst h
      simp [lookupChain]
    · simp only [List.map_cons, List.mem_cons, lookupChain, if_neg h]
      rw [← mem_keys_iff_lookup q rest]
      constructor
      · rintro (hc | hc)
        · exact absurd hc (fun hh => h hh.symm)
        · exact hc
      · exact Or.inr

theorem lookup_eq_of_mem :
    ∀ (cs : List (Hash × ChainAcc)) (p : Hash × ChainAcc),
      (cs.map Prod.fst).Nodup → p ∈ cs → lookupChain cs p.1 = some p.2
  | [], p, _, hp => by simp at hp
  | (k, c) :: rest, p, hnd, hp => by
    rcases List.mem_cons.mp hp with hp | hp
    · rw [hp]
      simp [lookupChain]
    · have hk : k ≠ p.1 := by
        intro hc
        have hm : p.1 ∈ rest.map Prod.fst := List.mem_map_of_mem Prod.fst hp
        rw [List.map_cons, List.nodup_cons] at hnd
        exact hnd.1 (hc ▸ hm)
      rw [lookupChain.eq_def]
      simp only []
      rw [if_neg hk]
      exact lookup_eq_of_mem rest p (by
        rw [List.map_cons, List.nodup_cons] at hnd
        exact hnd.2) hp

theorem processEntries_append (H : Hash → Hash → Hash) (height : Nat)
    (es : List EntryHash) (e : EntryHash) :
    processEntries H height (es ++ [e]) =
      addEntry H height (processEntries H height es) e := by
  simp [processEntries, List.foldl_append]

theorem entriesFor_append (k : Hash) (es1 es2 : List EntryHash) :
    entriesFor k (es1 ++ es2) = entriesFor k es1 ++ entriesFor k es2 := by
  simp [entriesFor, List.filter_append]

theorem entriesFor_singleton (k : Hash) (e : EntryHash) :
    entriesFor k [e] = if e.ChainID = k then [e.EntryHash] else [] := by
  by_cases h : e.ChainID = k
  · simp [entriesFor, h]
  · simp [entriesFor, h]

theorem mdOf_append (H : Hash → Hash → Hash) (l : List Hash) (x : Hash) :
    mdOf H (l ++ [x]) = MD.AddToChain H (mdOf H l) x := by
  simp [mdOf, List.foldl_append]

theorem keys_processEntries_nodup (H : Hash → Hash → Hash) (height : Nat)
    (es : List EntryHash) :
    ((processEntries H height es).map Prod.fst).Nodup := by
  induction es using List.reverseRecOn with
  | nil => simp [processEntries]
  | append_singleton es e ih =>
    rw [processEntries_append, addEntry_keys]
    by_cases hm : e.ChainID ∈ (processEntries H height es).map Prod.fst
    · rw [if_pos hm]
      exact ih
    · rw [if_neg hm]
      simp [List.nodup_append, ih, hm]

theorem lookup_processEntries (H : Hash → Hash → Hash) (height : Nat)
    (es : List EntryHash) (q : Hash) :
    lookupChain (processEntries H height es) q =
      if entriesFor q es = [] then none
      else some ⟨{ emptyNode with ChainID := q, BHeight := height },
                 mdOf H (entriesFor q es)⟩ := by
  induction es using List.reverseRecOn with
  | nil => simp [processEntries, lookupChain, entriesFor]
  | append_singleton es e ih =>
    rw [processEntries_append, lookup_addEntry, entriesFor_append,
      entriesFor_singleton]
    by_cases hq : q = e.ChainID
    · subst hq
      rw [if_pos rfl, ih]
      rw [if_pos rfl]
      by_cases h0 : entriesFor e.ChainID es = []
      · rw [if_pos h0, h0]
        rw [if_neg (show ¬(([] : List Hash) ++ [e.EntryHash] = []) by simp)]
        simp only [List.nil_append]
        rw [mdOf, List.foldl_cons, List.foldl_nil]
        rfl
      · rw [if_neg h0]
        rw [if_neg (show ¬(entriesFor e.ChainID es ++ [e.EntryHash] = []) by
          intro hc
          rcases List.append_eq_nil.mp hc with ⟨h1, _⟩
          exact h0 h1)]
        rw [mdOf_append]
    · rw [if_neg hq, ih]
      rw [if_neg (fun hc : e.ChainID = q => hq hc.symm)]
      simp

theorem mem_keys_processEntries (H : Hash → Hash → Hash) (height : Nat)
    (es : List EntryHash) (q : Hash) :
    q ∈ (processEntries H height es).map Prod.fst ↔
      q ∈ es.map EntryHash.ChainID := by
  rw [mem_keys_iff_lookup, lookup_processEntries]
  by_cases h0 : entriesFor q es = []
  · rw [if_pos h0]
    simp only [Option.isSome_none, Bool.false_eq_true, false_iff]
    intro hm
    rcases List.mem_map.mp hm with ⟨e, he, hq⟩
    have : e.EntryHash ∈ entriesFor q es := by
      rw [entriesFor]
      exact List.mem_map_of_mem _ (List.mem_filter.mpr ⟨he, by simp [hq]⟩)
    rw [h0] at this
    simp at this
  · rw [if_neg h0]
    simp only [Option.isSome_some, true_iff]
    rcases List.exists_mem_of_ne_nil _ h0 with ⟨x, hx⟩
    rw [entriesFor] at hx
    rcases List.mem_map.mp hx with ⟨e, he, _⟩
    have := List.mem_filter.mp he
    rcases this with ⟨he2, hq⟩
    simp only [decide_eq_true_eq] at hq
    exact List.mem_map.mpr ⟨e, he2, hq⟩

theorem mem_processEntries_eq (H : Hash → Hash → Hash) (height : Nat)
    (es : List EntryHash) (p : Hash × ChainAcc)
    (hp : p ∈ processEntries H height es) :
    p.2.node = { emptyNode with ChainID := p.1, BHeight := height } ∧
      p.2.MD.HashList = entriesFor p.1 es := by
  have hl := lookup_eq_of_mem _ p (keys_processEntries_nodup H height es) hp
  rw [lookup_processEntries] at hl
  by_cases h0 : entriesFor p.1 es = []
  · rw [if_pos h0] at hl
    cases hl
  · rw [if_neg h0] at hl
    have hv := (Option.some.injEq _ _).mp hl
    constructor
    · rw [← hv]
    · rw [← hv]
      exact hashList_mdOf H _

theorem finalizeChain_ChainID (H : Hash → Hash → Hash) (c : ChainAcc) :
    (finalizeChain H c).ChainID = c.node.ChainID := rfl

theorem chainEntries_chainIDs (H : Hash → Hash → Hash) (height : Nat)
    (es : List EntryHash) :
    (chainEntriesOf H (processEntries H height es)).map NEList.ChainID =
      (processEntries H height es).map Prod.fst := by
  rw [chainEntriesOf, List.map_map]
  exact List.map_congr_left (fun p hp => by
    have h := (mem_processEntries_eq H height es p hp).1
    show (finalizeChain H p.2).ChainID = p.1
    rw [finalizeChain_ChainID, h])

theorem sortNE_perm (l : List NEList) : List.Perm (sortNE l) l :=
  List.perm_insertionSort neLe l

theorem sortNE_sorted (l : List NEList) : (sortNE l).Pairwise neLe :=
  List.sorted_insertionSort neLe l

/-- Claim C4: for every flush, the sequence of `(chain_id, md_root)` pairs
used to derive the directory node's `list_md_root` (the sorted
`chainEntries` handed to the directory MD, `accumulator.go` lines
113-115 and 132-135) is strictly ascending by byte-lexicographic
`chain_id`, and every chain that received at least one entry in the
block appears in it exactly once. -/
theorem flush_directory_sort_invariant (H : Hash → Hash → Hash) (height : Nat)
    (es : List EntryHash) :
    ((sortNE (chainEntriesOf H (processEntries H height es))).map
        NEList.ChainID).Pairwise lexLt ∧
    ∀ cid : Hash,
      cid ∈ (sortNE (chainEntriesOf H (processEntries H height es))).map
          NEList.ChainID ↔
        cid ∈ es.map EntryHash.ChainID := by
  have hperm : List.Perm
      ((sortNE (chainEntriesOf H (processEntries H height es))).map NEList.ChainID)
      ((processEntries H height es).map Prod.fst) := by
    have hp := (sortNE_perm (chainEntriesOf H (processEntries H height es))).map
      NEList.ChainID
    rw [chainEntries_chainIDs] at hp
    exact hp
  have hnodupkeys := keys_processEntries_nodup H height es
  have hnodup : ((sortNE (chainEntriesOf H (processEntries H height es))).map
      NEList.ChainID).Nodup := hperm.nodup_iff.mpr hnodupkeys
  constructor
  · have hs := sortNE_sorted (chainEntriesOf H (processEntries H height es))
    have hne : (sortNE (chainEntriesOf H (processEntries H height es))).Pairwise
        (fun a b : NEList => a.ChainID ≠ b.ChainID) :=
      List.pairwise_map.mp hnodup
    refine List.pairwise_map.mpr ?_
    refine (hs.and hne).imp ?_
    intro a b hab
    rcases lexLt_trichot a.ChainID b.ChainID with h | h | h
    · exact h
    · exact absurd h hab.2
    · exact absurd h hab.1
  · intro cid
    rw [hperm.mem_iff]
    exact mem_keys_processEntries H height es cid

/-- Claim C7: every entry is routed to exactly one chain (the lazily
created accumulator for its chain id), and the finalized leaf-list node
that the flush persists for each chain carries the arrival-ordered leaf
list of that chain's MD, that MD's root, and `is_node = false`
(`accumulator.go` lines 87-93 and 99-111). -/
theorem flush_leaf_list_nodes (H : Hash → Hash → Hash) (height : Nat)
    (es : List EntryHash) :
    ((processEntries H height es).map Prod.fst).Nodup ∧
    (∀ k : Hash, k ∈ (processEntries H height es).map Prod.fst ↔
      k ∈ es.map EntryHash.ChainID) ∧
    ∀ p : Hash × ChainAcc, p ∈ processEntries H height es →
      (finalizeChain H p.2).ChainID = p.1 ∧
      (finalizeChain H p.2).EntryList = entriesFor p.1 es ∧
      (finalizeChain H p.2).ListMDRoot = MD.GetMDRoot H p.2.MD ∧
      (finalizeChain H p.2).IsNode = false := by
  refine ⟨keys_processEntries_nodup H height es,
    fun k => mem_keys_processEntries H height es k, ?_⟩
  intro p hp
  have h := mem_processEntries_eq H height es p hp
  refine ⟨?_, ?_, rfl, rfl⟩
  · show p.2.node.ChainID = p.1
    rw [h.1]
  · show p.2.MD.HashList = entriesFor p.1 es
    exact h.2

theorem flushDir_eq (H : Hash → Hash → Hash) (nh : Node → Hash) (t : Int)
    (a : AccState) : flushDir H nh t a = some (dirNodeOf H t a) := rfl

theorem flushPrevious_eq (H : Hash → Hash → Hash) (nh : Node → Hash) (t : Int)
    (a : AccState) : flushPrevious H nh t a = some a.previous := rfl

theorem flushHeight_eq (H : Hash → Hash → Hash) (nh : Node → Hash) (t : Int)
    (a : AccState) : flushHeight H nh t a = some a.height := rfl

theorem flushHead_eq (H : Hash → Hash → Hash) (nh : Node → Hash) (t : Int)
    (a : AccState) :
    flushHead H nh t a = some (some (nh (dirNodeOf H t a))) := by
  rw [flushHead, flushState, flush_eq]
  show some ((Node.Put (dirNodeOf H t a) nh _).Get NameSpace.nodeHead a.chainID) =
    some (some (nh (dirNodeOf H t a)))
  refine congrArg some ?_
  rw [Node.Put, DB.Put]
  show (if NameSpace.nodeHead = NameSpace.nodeHead ∧
      a.chainID = (dirNodeOf H t a).ChainID then some (nh (dirNodeOf H t a))
    else _) = some (nh (dirNodeOf H t a))
  rw [if_pos ⟨rfl, rfl⟩]

/-- Claim C1: the spec requires `previous` of a directory node at height
`h > 0` to equal `GetHash` of the previous directory node; the code
instead tests `SequenceNum > 0` on the freshly allocated directory node
before `SequenceNum` is assigned (`accumulator.go` lines 142-145), so
every directory node it produces carries the zero digest in `Previous`,
whether or not a previous directory node exists. -/
theorem flush_previous_always_zero (H : Hash → Hash → Hash) (nh : Node → Hash)
    (t : Int) (a : AccState) (d : Node) (hd : flushDir H nh t a = some d) :
    d.Previous = zeroHash := by
  rw [flushDir_eq] at hd
  have hv := Option.some.inj hd
  rw [← hv]
  rfl

/-- Claim C2: after a flush the store cell `NODE_HEAD[accumulator
chain id]` does name the just-persisted directory node (under the
modelled `Node.Put`), but the coordinator does *not* retain that node
as its new `previous`: `Run` never assigns `a.previous`
(`accumulator.go` lines 150-156), so `previous` after the flush is
whatever it was before. -/
theorem flush_head_written_previous_unchanged (H : Hash → Hash → Hash)
    (nh : Node → Hash) (t : Int) (a : AccState) (d : Node)
    (hd : flushDir H nh t a = some d) :
    flushHead H nh t a = some (some (nh d)) ∧
    flushPrevious H nh t a = some a.previous := by
  rw [flushDir_eq] at hd
  have hv := Option.some.inj hd
  rw [← hv]
  exact ⟨flushHead_eq H nh t a, flushPrevious_eq H nh t a⟩

/-- Claim C3: the spec requires the coordinator to increment its height
at the end of each flush; the code never modifies `a.height` in `Run`
(`accumulator.go` lines 153-157), so the height after a flush equals the
height before it and every directory node of a run carries the same
`BHeight`. -/
theorem flush_height_unchanged (H : Hash → Hash → Hash) (nh : Node → Hash)
    (t : Int) (a : AccState) (d : Node) (hd : flushDir H nh t a = some d) :
    flushHeight H nh t a = some a.height ∧ d.BHeight = a.height := by
  rw [flushDir_eq] at hd
  have hv := Option.some.inj hd
  rw [← hv]
  exact ⟨flushHeight_eq H nh t a, rfl⟩

theorem dirMD_eq_mdOf (H : Hash → Hash → Hash) (l : List NEList) :
    dirMD H l = mdOf H (l.map NEList.MDRoot) := by
  rw [dirMD, mdOf, List.foldl_map]

/-- Claim C5: the directory MD commits only to the per-chain `md_root`
values taken in sorted-by-chain-id order (`accumulator.go` lines
132-135): two flushes whose sorted chain entries carry the same `MDRoot`
sequence — even under different chain-id labels — produce directory
nodes with the same `list_md_root`. -/
theorem directory_root_ignores_labels (H : Hash → Hash → Hash)
    (nh : Node → Hash) (t : Int) (a1 a2 : AccState) (d1 d2 : Node)
    (h1 : flushDir H nh t a1 = some d1) (h2 : flushDir H nh t a2 = some d2)
    (hroots : (sortNE (chainEntriesOf H a1.chains)).map NEList.MDRoot =
              (sortNE (chainEntriesOf H a2.chains)).map NEList.MDRoot) :
    d1.ListMDRoot = d2.ListMDRoot := by
  rw [flushDir_eq] at h1 h2
  have hv1 := Option.some.inj h1
  have hv2 := Option.some.inj h2
  rw [← hv1, ← hv2]
  show MD.GetMDRoot H (dirMD H (sortNE (chainEntriesOf H a1.chains))) =
    MD.GetMDRoot H (dirMD H (sortNE (chainEntriesOf H a2.chains)))
  rw [dirMD_eq_mdOf, dirMD_eq_mdOf, hroots]

/-- Claim C10: in a run whose `Init` found no head (`previous` is nil),
no flush dereferences the nil `previous`: the `SequenceNum > 0` guard is
evaluated on the fresh directory node whose `SequenceNum` is still 0, so
the `a.previous.GetHash()` branch is unreachable and the flush always
completes (`accumulator.go` lines 138-145). -/
theorem flush_no_nil_dereference (H : Hash → Hash → Hash) (nh : Node → Hash)
    (t : Int) (a : AccState) (hprev : a.previous = none) :
    (flush H nh t a).isSome = true := by
  rw [flush_eq]
  rfl

/-- Claim C8: in the building loop, a `true` on the control channel ends
the block, while a `false` is ignored: it causes no state change, no
flush, and no loss of accumulated chain state (`accumulator.go` lines
82-86). -/
theorem control_true_ends_false_ignored (H : Hash → Hash → Hash)
    (height : Nat) (cs : List (Hash × ChainAcc)) (rest : List Event) :
    buildLoop H height cs (Event.ctl false :: rest) =
      buildLoop H height cs rest ∧
    buildLoop H height cs (Event.ctl true :: rest) = (cs, true) :=
  ⟨rfl, rfl⟩

/-- Claim C9 divergence: a receive on a closed Go channel yields the
zero value `false`, which the block loop ignores, so a closed control
channel never ends the block — the loop keeps its state and keeps
building forever instead of flushing and exiting (`accumulator.go`
lines 75-97; `Run`'s outer loop has no break or return at all). -/
theorem closed_control_never_ends_block (H : Hash → Hash → Hash)
    (height : Nat) (cs : List (Hash × ChainAcc)) :
    ∀ n : Nat,
      buildLoop H height cs (List.replicate n (Event.ctl false)) = (cs, false)
  | 0 => rfl
  | n + 1 => by
    rw [List.replicate_succ]
    exact closed_control_never_ends_block H height cs n

/-- Claim C6: `Init` against a store whose head cell names a decodable
node retains that node as `previous` and starts at its height plus one;
`Init` against a store with no head entry leaves `previous` unset and
starts at height 0 (`accumulator.go` lines 40-69). -/
theorem init_head_semantics (db : DB) (cid : Hash) :
    (db.Get NameSpace.nodeHead cid = none →
      Init db cid = some ⟨db, cid, 0, [], none, []⟩) ∧
    (∀ (hh bs : List Nat) (n : Node) (k : Nat),
      db.Get NameSpace.nodeHead cid = some hh →
      db.Get NameSpace.node hh = some bs →
      Unmarshal bs = some (n, k) →
      Init db cid = some ⟨db, cid, n.BHeight + 1, [], some n, []⟩) := by
  constructor
  · intro h
    simp only [Init, h]
  · intro hh bs n k h1 h2 h3
    simp only [Init, h1, h2, h3]

/-! Concrete instantiations used by the witnesses. -/

/-- A concrete 2-to-1 hash used only to instantiate witnesses. -/
def H0 : Hash → Hash → Hash := fun _ _ => zeroHash

/-- A concrete node digest used only to instantiate witnesses. -/
def nh0 : Node → Hash := fun n => n.ChainID

/-- The empty store. -/
def dbTriv : DB := ⟨fun _ _ => none⟩

/-- A concrete chain id. -/
def cidA : Hash := List.replicate 32 1

/-- A second, distinct concrete chain id. -/
def cidB : Hash := List.replicate 32 2

/-- A concrete entry hash. -/
def leafX : Hash := List.replicate 32 7

/-- Another concrete entry hash. -/
def leafY : Hash := List.replicate 32 9

/-- A coordinator state at height 1 holding a previous directory node. -/
def aW : AccState := ⟨dbTriv, cidA, 1, [], some emptyNode, []⟩

/-- The directory node a flush of `aW` at timestamp 5 produces. -/
def dW : Node := ⟨1, cidA, 1, 1, 5, zeroHash, true, zeroHash, []⟩

/-- Witness for C1: even with a previous directory node present, the
flushed directory node's `Previous` is the zero digest. -/
theorem flush_previous_always_zero_witness :
    flushDir H0 nh0 5 aW = some dW ∧ dW.Previous = zeroHash :=
  ⟨rfl, flush_previous_always_zero H0 nh0 5 aW dW rfl⟩

/-- Witness for C2: the head cell is updated but `previous` is still the
old node after the flush. -/
theorem flush_head_written_previous_unchanged_witness :
    flushHead H0 nh0 5 aW = some (some (nh0 dW)) ∧
    flushPrevious H0 nh0 5 aW = some (some emptyNode) :=
  ⟨(flush_head_written_previous_unchanged H0 nh0 5 aW dW rfl).1,
   (flush_head_written_previous_unchanged H0 nh0 5 aW dW rfl).2⟩

/-- Witness for C3: flushing at height 1 leaves the height at 1. -/
theorem flush_height_unchanged_witness :
    flushHeight H0 nh0 5 aW = some 1 ∧ dW.BHeight = 1 :=
  ⟨(flush_height_unchanged H0 nh0 5 aW dW rfl).1,
   (flush_height_unchanged H0 nh0 5 aW dW rfl).2⟩

/-- A block with one chain labelled `cidA` holding the single leaf
`leafX`. -/
def a5A : AccState := ⟨dbTriv, cidA, 0, processEntries H0 0 [⟨cidA, leafX⟩], none, []⟩

/-- The same single-leaf block under the different label `cidB`. -/
def a5B : AccState := ⟨dbTriv, cidB, 0, processEntries H0 0 [⟨cidB, leafX⟩], none, []⟩

/-- The directory node flushed from `a5A`. -/
def d5A : Node := ⟨1, cidA, 0, 0, 0, zeroHash, true, leafX, []⟩

/-- The directory node flushed from `a5B`. -/
def d5B : Node := ⟨1, cidB, 0, 0, 0, zeroHash, true, leafX, []⟩

/-- Witness for C5: two blocks with the same per-chain roots under
different chain-id labels produce the same directory root. -/
theorem directory_root_ignores_labels_witness :
    cidA ≠ cidB ∧
    flushDir H0 nh0 0 a5A = some d5A ∧
    flushDir H0 nh0 0 a5B = some d5B ∧
    d5A.ListMDRoot = d5B.ListMDRoot :=
  ⟨by decide, by decide, by decide,
   directory_root_ignores_labels H0 nh0 0 a5A a5B d5A d5B
     (by decide) (by decide) (by decide)⟩

/-- A directory head node at height 4, as stored in `db6`. -/
def headNode6 : Node := ⟨1, cidA, 4, 4, 0, zeroHash, true, zeroHash, []⟩

/-- The serialization of `headNode6`. -/
def bs6 : List Nat := Marshal headNode6

/-- A store whose head cell names `headNode6` (stored under the key
`cidA`). -/
def db6 : DB :=
  ⟨fun ns k =>
    if ns = NameSpace.nodeHead ∧ k = cidA then some cidA
    else if ns = NameSpace.node ∧ k = cidA then some bs6
    else none⟩

set_option maxRecDepth 100000 in
/-- Witness for C6: `Init` on the empty store starts fresh at height 0;
`Init` on `db6` decodes the stored head and starts at height 5 with the
head retained as `previous`. -/
theorem init_head_semantics_witness :
    (dbTriv.Get NameSpace.nodeHead cidA = none ∧
     Init dbTriv cidA = some ⟨dbTriv, cidA, 0, [], none, []⟩) ∧
    (db6.Get NameSpace.nodeHead cidA = some cidA ∧
     db6.Get NameSpace.node cidA = some bs6 ∧
     Unmarshal bs6 = some (headNode6, 127) ∧
     Init db6 cidA = some ⟨db6, cidA, headNode6.BHeight + 1, [], some headNode6, []⟩) :=
  ⟨⟨rfl, (init_head_semantics dbTriv cidA).1 rfl⟩,
   ⟨by decide, by decide, by decide,
    (init_head_semantics db6 cidA).2 cidA bs6 headNode6 127
      (by decide) (by decide) (by decide)⟩⟩

/-- Two entries for the same chain, in order. -/
def es7 : List EntryHash := [⟨cidA, leafX⟩, ⟨cidA, leafY⟩]

/-- The chain-map entry produced by processing `es7`. -/
def p7 : Hash × ChainAcc :=
  (cidA, ⟨⟨0, cidA, 0, 0, 0, zeroHash, false, zeroHash, []⟩,
          ⟨[leafX, leafY], [none, some zeroHash]⟩⟩)

/-- Witness for C7: the finalized leaf-list node of the single chain of
`es7` carries both leaves in arrival order, the MD root, and
`is_node = false`. -/
theorem flush_leaf_list_nodes_witness :
    p7 ∈ processEntries H0 0 es7 ∧
    ((finalizeChain H0 p7.2).ChainID = p7.1 ∧
     (finalizeChain H0 p7.2).EntryList = entriesFor p7.1 es7 ∧
     (finalizeChain H0 p7.2).ListMDRoot = MD.GetMDRoot H0 p7.2.MD ∧
     (finalizeChain H0 p7.2).IsNode = false) :=
  ⟨by decide, (flush_leaf_list_nodes H0 0 es7).2.2 p7 (by decide)⟩

/-- A cold-start coordinator state: no previous directory node. -/
def a10 : AccState := ⟨dbTriv, cidA, 0, [], none, []⟩

/-- Witness for C10: a flush from a state with no previous node
completes without dereferencing the nil pointer. -/
theorem flush_no_nil_dereference_witness :
    a10.previous = none ∧ (flush H0 nh0 0 a10).isSome = true :=
  ⟨rfl, flush_no_nil_dereference H0 nh0 0 a10 rfl⟩
